import Mathlib

/-!
# Line Candidate Reduction and Selection-Persistence Engine

Shallow embedding of the core engine of `image_clipper.py`:

* the line reducer (`detect_lines` lines 536–541 and `detect_lines_for_image`
  lines 607–613): `sorted(set(raw))` followed by a greedy left-to-right merge
  that keeps a value only when it is more than 10 pixels from the last kept
  value;
* the selection remap (`detect_lines` lines 543–562): nearest candidate
  within a strict 20-pixel cutoff, deduplicated in insertion order;
* the interactive selection state machine (`on_canvas_click`,
  `use_selected_lines`) and its persisted 1-based ordinal pair
  `selected_line_numbers`;
* the batch processor (`batch_process` lines 958–1023): per-image outcome
  classification (success / skipped / errored) and aggregate counting;
* the horizontal-segment filter of the extractor interface (lines 525–534):
  angle of the segment within 5 degrees of horizontal, reported y-position
  `(y1 + y2) // 2`.

Pixel coordinates are natural numbers; Python's `abs(a - b)` on them is
modelled as `((a : Int) - b).natAbs`, and Python's floor division `//` on
non-negative ints as `Nat` division.
-/

namespace ImageClipper

/-! ## Line reduction

`horizontal_lines = sorted(set(horizontal_lines))` followed by
```
merged_lines = []
for y in horizontal_lines:
    if not merged_lines or abs(y - merged_lines[-1]) > 10:
        merged_lines.append(y)
```
`sortedDedup` computes `sorted(set(·))` by ordered insertion that drops
exact repeats; `mergeAux last ys` is the loop body once `merged_lines` is
non-empty with last kept value `last`. -/

/-- Insert `y` into an ascending duplicate-free list, discarding `y` if it is
already present (set semantics). -/
def insertDedup (y : Nat) : List Nat → List Nat
  | [] => [y]
  | x :: xs =>
    if y < x then y :: x :: xs
    else if y = x then x :: xs
    else x :: insertDedup y xs

/-- `sorted(set(raw))`: the ascending list of the distinct values of `raw`. -/
def sortedDedup (raw : List Nat) : List Nat := raw.foldr insertDedup []

/-- The merge loop of `detect_lines` after the first value has been kept:
`last` is `merged_lines[-1]`; a value is kept only if
`abs(y - merged_lines[-1]) > 10`. -/
def mergeAux : Nat → List Nat → List Nat
  | _, [] => []
  | last, y :: ys =>
    if 10 < ((y : Int) - (last : Int)).natAbs
    then y :: mergeAux y ys
    else mergeAux last ys

/-- The full merge loop: the first value is always kept
(`if not merged_lines or ...`). -/
def mergeLines : List Nat → List Nat
  | [] => []
  | y :: ys => y :: mergeAux y ys

/-- The line reducer: `sorted(set(raw))` then the greedy merge
(`detect_lines` lines 536–541, `detect_lines_for_image` lines 607–611). -/
def reduceLines (raw : List Nat) : List Nat := mergeLines (sortedDedup raw)

/-! ## Selection remap (`detect_lines` lines 543–562) -/

/-- Python `abs(a - b)` for pixel coordinates. -/
def dist (a b : Nat) : Nat := ((a : Int) - (b : Int)).natAbs

/-- The loop
```
best_idx = -1; best_dist = float('inf')
for i, new_y in enumerate(self.detected_lines):
    dist = abs(new_y - old_y)
    if dist < best_dist and dist < 20:
        best_dist = dist; best_idx = i
```
with the running state `(best_idx, best_dist)` as an `Option (Nat × Nat)`
(`none` is the initial `(-1, inf)` state, in which `dist < best_dist` is
always true). -/
def findClosestAux (oldY : Nat) : List Nat → Nat → Option (Nat × Nat) → Option (Nat × Nat)
  | [], _, best => best
  | y :: ys, i, best =>
    match best with
    | none =>
      findClosestAux oldY ys (i + 1) (if dist y oldY < 20 then some (i, dist y oldY) else none)
    | some (bi, bd) =>
      findClosestAux oldY ys (i + 1)
        (if dist y oldY < bd ∧ dist y oldY < 20 then some (i, dist y oldY) else some (bi, bd))

/-- The index of the closest new line within the 20-pixel cutoff
(`none` when `best_idx` stays `-1`). -/
def findClosest (newLines : List Nat) (oldY : Nat) : Option Nat :=
  (findClosestAux oldY newLines 0 none).map Prod.fst

/-- `old_selected_y = [self.detected_lines[i] for i in self.selected_lines
if i < len(self.detected_lines)]`. -/
def resolveOldY (oldLines : List Nat) (selected : List Nat) : List Nat :=
  selected.filterMap (fun i => oldLines.get? i)

/-- One iteration of the remap loop:
`if best_idx >= 0 and best_idx not in new_selected: new_selected.append(best_idx)`. -/
def remapStep (newLines : List Nat) (acc : List Nat) (oldY : Nat) : List Nat :=
  match findClosest newLines oldY with
  | some idx => if idx ∈ acc then acc else acc ++ [idx]
  | none => acc

/-- The remap loop:
```
new_selected = []
for old_y in old_selected_y:
    ... find best_idx ...
    if best_idx >= 0 and best_idx not in new_selected:
        new_selected.append(best_idx)
```
-/
def remapSelection (oldSelectedY : List Nat) (newLines : List Nat) : List Nat :=
  oldSelectedY.foldl (remapStep newLines) []

/-! ## Interactive session state -/

/-- The mutable session state of `ImageClipper` that the engine touches:
`detected_lines`, `selected_lines` (indices into `detected_lines`) and the
persisted 1-based ordinal pair `selected_line_numbers`. -/
structure ClipState where
  detectedLines : List Nat
  selectedLines : List Nat
  selectedLineNumbers : List Nat
deriving DecidableEq

/-- Ascending insertion (stable), for Python's `sorted` on short index lists. -/
def insertLe (y : Nat) : List Nat → List Nat
  | [] => [y]
  | x :: xs => if y ≤ x then y :: x :: xs else x :: insertLe y xs

/-- Python `sorted(l)` (duplicates kept). -/
def sortList (l : List Nat) : List Nat := l.foldr insertLe []

/-- `detect_lines` lines 536–574 (state transition only): reduce the raw
candidates, remap the previous selection onto the new canonical sequence,
and install both.  `selected_line_numbers` is not written anywhere in
`detect_lines`, so it is carried over unchanged. -/
def detectLinesUpdate (s : ClipState) (raw : List Nat) : ClipState :=
  let mergedLines := reduceLines raw
  let oldSelectedY := resolveOldY s.detectedLines s.selectedLines
  let newSelected := remapSelection oldSelectedY mergedLines
  { detectedLines := mergedLines
    selectedLines := newSelected
    selectedLineNumbers := s.selectedLineNumbers }

/-- The closest-line scan of `on_canvas_click` (no cutoff inside the loop;
`min_dist` starts at `inf`, strict `<` update). -/
def closestAux (imgY : Int) : List Nat → Nat → Option (Nat × Nat) → Option (Nat × Nat)
  | [], _, best => best
  | y :: ys, i, best =>
    match best with
    | none => closestAux imgY ys (i + 1) (some (i, ((y : Int) - imgY).natAbs))
    | some (bi, bd) =>
      closestAux imgY ys (i + 1)
        (if ((y : Int) - imgY).natAbs < bd then some (i, ((y : Int) - imgY).natAbs)
         else some (bi, bd))

/-- `on_canvas_click` (lines 674–706), taking the image-space click position
`imgY` as given (the event-to-image coordinate conversion is display glue):
find the closest detected line; if within 20 pixels, toggle it (remove if
selected, else evict the oldest when 2 are already selected and append);
when the new selection has exactly 2 members, persist
`selected_line_numbers = sorted([idx + 1 ...])`. -/
def canvasClick (s : ClipState) (imgY : Int) : ClipState :=
  if s.detectedLines = [] then s
  else
    match closestAux imgY s.detectedLines 0 none with
    | none => s
    | some (closestIdx, minDist) =>
      if minDist < 20 then
        let sel :=
          if closestIdx ∈ s.selectedLines then s.selectedLines.erase closestIdx
          else
            (if 2 ≤ s.selectedLines.length then s.selectedLines.tail
             else s.selectedLines) ++ [closestIdx]
        let nums :=
          if sel.length = 2 then sortList (sel.map (· + 1)) else s.selectedLineNumbers
        { detectedLines := s.detectedLines
          selectedLines := sel
          selectedLineNumbers := nums }
      else s

/-- `use_selected_lines` (lines 712–725): apply a listbox selection when it
has exactly 2 entries, persisting `selected_line_numbers`; otherwise warn
and leave the state unchanged. -/
def useSelectedLines (s : ClipState) (selection : List Nat) : ClipState :=
  if selection.length = 2 then
    { detectedLines := s.detectedLines
      selectedLines := selection
      selectedLineNumbers := sortList (selection.map (· + 1)) }
  else s

/-! ## Batch processing (`batch_process` lines 958–1023) -/

/-- Per-image outcome: crop bounds on success, the detected line count (the
content of the reason string `"(only {n} lines detected)"`) on skip, or an
error. -/
inductive ImageOutcome where
  | success : Nat × Nat → ImageOutcome
  | skipped : Nat → ImageOutcome
  | errored : ImageOutcome
deriving DecidableEq

/-- Lines 977–993: skip when fewer lines than `max(line_num1, line_num2)`
were detected, else take the y-values at the 1-based ranks and order them
ascending. -/
def processDetected (lineNum1 lineNum2 : Nat) (detected : List Nat) : ImageOutcome :=
  if detected.length < max lineNum1 lineNum2 then .skipped detected.length
  else
    let y1 := detected.getD (lineNum1 - 1) 0
    let y2 := detected.getD (lineNum2 - 1) 0
    if y2 < y1 then .success (y2, y1) else .success (y1, y2)

/-- Behaviour of one detection run inside `detect_lines_for_image`: either
the extractor returns raw candidates, or some step raises. -/
inductive DetectResult where
  | ok : List Nat → DetectResult
  | exn : DetectResult
deriving DecidableEq

/-- `detect_lines_for_image` (lines 579–615): reduce the raw candidates;
`except Exception: return []`. -/
def detectLinesForImage : DetectResult → List Nat
  | .ok raw => reduceLines raw
  | .exn => []

/-- One batch item: `cv2.imread` returned `None` (decode failure), or the
image decoded and detection behaved as recorded. -/
inductive BatchImage where
  | decodeFail : BatchImage
  | img : DetectResult → BatchImage
deriving DecidableEq

/-- Lines 969–1007 for one image: a decode failure raises `ValueError` and is
caught by the per-image `except`, incrementing `error_count`; otherwise the
detected lines are classified by `processDetected`. -/
def processImage (n1 n2 : Nat) : BatchImage → ImageOutcome
  | .decodeFail => .errored
  | .img det => processDetected n1 n2 (detectLinesForImage det)

/-- The aggregate counters `success_count`, `skip_count`, `error_count`. -/
structure BatchReport where
  success : Nat
  skipped : Nat
  errored : Nat
deriving DecidableEq

/-- One iteration of the batch loop: classify the image and increment the
corresponding counter; no outcome aborts the loop. -/
def batchStep (n1 n2 : Nat) (rep : BatchReport) (im : BatchImage) : BatchReport :=
  match processImage n1 n2 im with
  | .success _ => { rep with success := rep.success + 1 }
  | .skipped _ => { rep with skipped := rep.skipped + 1 }
  | .errored => { rep with errored := rep.errored + 1 }

/-- The whole batch run over its images. -/
def batchProcess (n1 n2 : Nat) (images : List BatchImage) : BatchReport :=
  images.foldl (batchStep n1 n2) ⟨0, 0, 0⟩

/-! ## Extractor segment filter (lines 525–534) -/

/-- One raw segment from `cv2.HoughLinesP` (pixel coordinates). -/
structure Segment where
  x1 : Nat
  y1 : Nat
  x2 : Nat
  y2 : Nat

/-- `y_avg = (y1 + y2) // 2` (floor division on non-negative ints). -/
def rawLineY (s : Segment) : Nat := (s.y1 + s.y2) / 2

/-- `angle = abs(np.arctan2(y2 - y1, x2 - x1) * 180 / np.pi)` followed by
`angle < 5 or angle > 175`.  `atan2(dy, dx)` is the argument of the complex
number `dx + dy*I`. -/
def acceptsSegment (s : Segment) : Prop :=
  |Complex.arg (((s.x2 : ℝ) - (s.x1 : ℝ)) + ((s.y2 : ℝ) - (s.y1 : ℝ)) * Complex.I)|
      * (180 / Real.pi) < 5 ∨
  175 <
    |Complex.arg (((s.x2 : ℝ) - (s.x1 : ℝ)) + ((s.y2 : ℝ) - (s.y1 : ℝ)) * Complex.I)|
      * (180 / Real.pi)

/-! ## Lemmas about `sortedDedup` -/

theorem mem_insertDedup {a y : Nat} : ∀ {l : List Nat}, a ∈ insertDedup y l ↔ a = y ∨ a ∈ l
  | [] => by simp [insertDedup]
  | x :: xs => by
    simp only [insertDedup]
    split
    · simp [List.mem_cons]
    · split
      · subst ‹y = x›
        simp [List.mem_cons]
      · simp only [List.mem_cons, @mem_insertDedup a y xs]
        tauto

theorem sorted_insertDedup {y : Nat} :
    ∀ {l : List Nat}, List.Sorted (· < ·) l → List.Sorted (· < ·) (insertDedup y l)
  | [], _ => by simp [insertDedup]
  | x :: xs, h => by
    rw [List.sorted_cons] at h
    obtain ⟨hx, hxs⟩ := h
    simp only [insertDedup]
    split
    · rw [List.sorted_cons]
      refine ⟨?_, (List.sorted_cons).2 ⟨hx, hxs⟩⟩
      intro b hb
      rcases List.mem_cons.1 hb with rfl | hb
      · assumption
      · exact lt_trans ‹y < x› (hx b hb)
    · split
      · exact (List.sorted_cons).2 ⟨hx, hxs⟩
      · have hxy : x < y := by omega
        rw [List.sorted_cons]
        refine ⟨?_, sorted_insertDedup hxs⟩
        intro b hb
        rcases mem_insertDedup.1 hb with rfl | hb
        · exact hxy
        · exact hx b hb

theorem sortedDedup_sorted : ∀ raw : List Nat, List.Sorted (· < ·) (sortedDedup raw)
  | [] => List.sorted_nil
  | _ :: xs => sorted_insertDedup (sortedDedup_sorted xs)

theorem mem_sortedDedup {a : Nat} : ∀ {raw : List Nat}, a ∈ sortedDedup raw ↔ a ∈ raw
  | [] => Iff.rfl
  | x :: xs => by
    show a ∈ insertDedup x (sortedDedup xs) ↔ _
    rw [mem_insertDedup, @mem_sortedDedup a xs, List.mem_cons]

/-- Two strictly ascending lists with the same members are equal. -/
theorem sorted_lt_eq_of_mem_iff :
    ∀ {l₁ l₂ : List Nat}, List.Sorted (· < ·) l₁ → List.Sorted (· < ·) l₂ →
      (∀ a, a ∈ l₁ ↔ a ∈ l₂) → l₁ = l₂
  | [], [], _, _, _ => rfl
  | [], y :: ys, _, _, hm => absurd ((hm y).2 (List.mem_cons_self y ys)) (List.not_mem_nil y)
  | x :: xs, [], _, _, hm => absurd ((hm x).1 (List.mem_cons_self x xs)) (List.not_mem_nil x)
  | x :: xs, y :: ys, h₁, h₂, hm => by
    rw [List.sorted_cons] at h₁ h₂
    obtain ⟨hx, hxs⟩ := h₁
    obtain ⟨hy, hys⟩ := h₂
    have hxy : x = y := by
      rcases List.mem_cons.1 ((hm x).1 (List.mem_cons_self x xs)) with h | h
      · exact h
      · rcases List.mem_cons.1 ((hm y).2 (List.mem_cons_self y ys)) with h' | h'
        · exact h'.symm
        · exact absurd (lt_trans (hy x h) (hx y h')) (lt_irrefl y)
    subst hxy
    have hm' : ∀ a, a ∈ xs ↔ a ∈ ys := by
      intro a
      constructor
      · intro ha
        rcases List.mem_cons.1 ((hm a).1 (List.mem_cons_of_mem x ha)) with rfl | h
        · exact absurd (hx a ha) (lt_irrefl a)
        · exact h
      · intro ha
        rcases List.mem_cons.1 ((hm a).2 (List.mem_cons_of_mem x ha)) with rfl | h
        · exact absurd (hy a ha) (lt_irrefl a)
        · exact h
    rw [sorted_lt_eq_of_mem_iff hxs hys hm']

theorem sortedDedup_perm {raw raw' : List Nat} (h : raw.Perm raw') :
    sortedDedup raw = sortedDedup raw' :=
  sorted_lt_eq_of_mem_iff (sortedDedup_sorted raw) (sortedDedup_sorted raw')
    (fun a => by rw [mem_sortedDedup, mem_sortedDedup, h.mem_iff])

theorem insertDedup_of_head {y : Nat} :
    ∀ {l : List Nat}, (∀ b ∈ l, y < b) → insertDedup y l = y :: l
  | [], _ => rfl
  | x :: xs, h => by
    simp only [insertDedup, if_pos (h x (List.mem_cons_self x xs))]

theorem sortedDedup_eq_self : ∀ {l : List Nat}, List.Sorted (· < ·) l → sortedDedup l = l
  | [], _ => rfl
  | x :: xs, h => by
    rw [List.sorted_cons] at h
    show insertDedup x (sortedDedup xs) = x :: xs
    rw [sortedDedup_eq_self h.2]
    exact insertDedup_of_head h.1

/-! ## Lemmas about the greedy merge -/

theorem dist_eq_of_le {a b : Nat} (h : b ≤ a) : dist a b = a - b := by
  unfold dist
  omega

/-- The strict gap relation maintained between kept lines. -/
theorem gap_trans {a b c : Nat} (h₁ : a < b ∧ 10 < b - a) (h₂ : b < c ∧ 10 < c - b) :
    a < c ∧ 10 < c - a := by
  omega

theorem mergeAux_pairwise :
    ∀ (ys : List Nat) (last : Nat), List.Sorted (· < ·) (last :: ys) →
      (last :: mergeAux last ys).Pairwise (fun a b => a < b ∧ 10 < b - a)
  | [], last, _ => by simp [mergeAux]
  | y :: ys, last, h => by
    rw [List.sorted_cons] at h
    obtain ⟨hlast, hys⟩ := h
    have hly : last < y := hlast y (List.mem_cons_self y ys)
    simp only [mergeAux]
    split
    · have hgap : 10 < y - last := by
        have := dist_eq_of_le hly.le
        unfold dist at this
        omega
      have ih := mergeAux_pairwise ys y hys
      rw [List.pairwise_cons]
      refine ⟨?_, ih⟩
      intro b hb
      rcases List.mem_cons.1 hb with rfl | hb
      · exact ⟨hly, hgap⟩
      · exact gap_trans ⟨hly, hgap⟩ ((List.pairwise_cons.1 ih).1 b hb)
    · refine mergeAux_pairwise ys last ?_
      rw [List.sorted_cons] at hys ⊢
      exact ⟨fun b hb => lt_trans hly (hys.1 b hb), hys.2⟩

theorem mergeAux_eq_self :
    ∀ {ys : List Nat} {last : Nat}, List.Chain (fun a b => a < b ∧ 10 < b - a) last ys →
      mergeAux last ys = ys
  | [], _, _ => rfl
  | y :: ys, last, h => by
    rcases h with _ | ⟨⟨hlt, hgap⟩, hchain⟩
    simp only [mergeAux]
    rw [if_pos, mergeAux_eq_self hchain]
    omega

/-- C7 helper: the canonical sequence is pairwise separated by more than the
merge tolerance. -/
theorem reduceLines_pairwise (raw : List Nat) :
    (reduceLines raw).Pairwise (fun a b => a < b ∧ 10 < b - a) := by
  unfold reduceLines
  rcases h : sortedDedup raw with _ | ⟨x, xs⟩
  · simp [mergeLines]
  · have hs : List.Sorted (· < ·) (x :: xs) := h ▸ sortedDedup_sorted raw
    exact mergeAux_pairwise xs x hs

/-- **C7** A CanonicalLine sequence produced by the LineReducer is strictly
sorted ascending and no two of its entries are within the merge tolerance
(10 pixels) of each other. -/
theorem canonical_sequence_invariant (raw : List Nat) :
    List.Sorted (· < ·) (reduceLines raw) ∧
      (reduceLines raw).Pairwise (fun a b => 10 < dist b a) := by
  have hp := reduceLines_pairwise raw
  constructor
  · exact hp.imp (fun h => h.1)
  · refine hp.imp (fun h => ?_)
    rw [dist_eq_of_le h.1.le]
    exact h.2

/-- **C2** The LineReducer sorts ascending, discards exact duplicates
(multiset/set semantics: permutations and repeats of the raw input do not
change the result), then keeps a value only when it is more than 10 pixels
from the last kept value; `{100, 105, 108, 200}` reduces to `[100, 200]`,
the empty input to `[]`, and a single raw line to a singleton. -/
theorem lineReducer_sort_dedup_merge :
    (∀ raw raw' : List Nat, raw.Perm raw' → reduceLines raw = reduceLines raw')
    ∧ (∀ (x : Nat) (raw : List Nat), x ∈ raw → reduceLines (x :: raw) = reduceLines raw)
    ∧ reduceLines [100, 105, 108, 200] = [100, 200]
    ∧ reduceLines [] = []
    ∧ ∀ y : Nat, reduceLines [y] = [y] := by
  refine ⟨?_, ?_, by decide, rfl, fun y => rfl⟩
  · intro raw raw' h
    unfold reduceLines
    rw [sortedDedup_perm h]
  · intro x raw hx
    unfold reduceLines
    have h : sortedDedup (x :: raw) = sortedDedup raw := by
      refine sorted_lt_eq_of_mem_iff (sortedDedup_sorted _) (sortedDedup_sorted _) ?_
      intro a
      rw [mem_sortedDedup, mem_sortedDedup, List.mem_cons]
      constructor
      · rintro (rfl | h)
        · exact hx
        · exact h
      · exact Or.inr
    rw [h]

/-- Witness for C2: the reducer is invariant under permutation of the raw
multiset, evaluated at a concrete input. -/
theorem lineReducer_multiset_witness :
    reduceLines [105, 100, 108, 200] = reduceLines [100, 105, 108, 200] :=
  lineReducer_sort_dedup_merge.1 [105, 100, 108, 200] [100, 105, 108, 200] (by decide)

/-- **C8** The LineReducer is idempotent on canonical sequences: an input that
is already strictly sorted with every pair of values more than 10 pixels
apart is returned unchanged. -/
theorem lineReducer_idempotent (l : List Nat) (hs : List.Sorted (· < ·) l)
    (hgap : l.Pairwise (fun a b => 10 < dist b a)) : reduceLines l = l := by
  unfold reduceLines
  rw [sortedDedup_eq_self hs]
  have hp : l.Pairwise (fun a b => a < b ∧ 10 < b - a) := by
    refine (hs.and hgap).imp (fun h => ⟨h.1, ?_⟩)
    have := h.2
    rwa [dist_eq_of_le h.1.le] at this
  rcases l with _ | ⟨x, xs⟩
  · rfl
  · show x :: mergeAux x xs = x :: xs
    rw [mergeAux_eq_self hp.chain']

/-- Witness for C8 at the canonical sequence `[0, 20, 40]`. -/
theorem lineReducer_idempotent_witness : reduceLines [0, 20, 40] = [0, 20, 40] :=
  lineReducer_idempotent [0, 20, 40] (by decide) (by decide)

/-! ## Lemmas about the remap scan -/

/-- Running the scan from a live best candidate `(bi, bd)` with `bd < 20`
always ends in a live candidate whose distance is no larger than `bd`,
below the cutoff, minimal over every scanned line, and that is either the
starting candidate or one of the scanned lines. -/
theorem findClosestAux_some_spec (oldY : Nat) :
    ∀ (ys : List Nat) (i bi bd : Nat), bd < 20 →
      ∃ j d, findClosestAux oldY ys i (some (bi, bd)) = some (j, d) ∧ d ≤ bd ∧ d < 20 ∧
        ((j = bi ∧ d = bd) ∨
          ∃ k, ∃ hk : k < ys.length, j = i + k ∧ d = dist (ys.get ⟨k, hk⟩) oldY) ∧
        ∀ z ∈ ys, d ≤ dist z oldY
  | [], _, bi, bd, hbd => ⟨bi, bd, rfl, le_refl _, hbd, Or.inl ⟨rfl, rfl⟩, by simp⟩
  | y :: ys, i, bi, bd, hbd => by
    simp only [findClosestAux]
    split
    · rename_i hcond
      obtain ⟨j, d, heq, hle, h20, horig, hall⟩ :=
        findClosestAux_some_spec oldY ys (i + 1) i (dist y oldY) hcond.2
      refine ⟨j, d, heq, le_trans hle hcond.1.le, h20, ?_, ?_⟩
      · rcases horig with ⟨rfl, rfl⟩ | ⟨k, hk, rfl, rfl⟩
        · exact Or.inr ⟨0, Nat.succ_pos _, by omega, rfl⟩
        · exact Or.inr ⟨k + 1, Nat.succ_lt_succ hk, by omega, rfl⟩
      · intro z hz
        rcases List.mem_cons.1 hz with rfl | hz
        · exact hle
        · exact hall z hz
    · rename_i hcond
      obtain ⟨j, d, heq, hle, h20, horig, hall⟩ :=
        findClosestAux_some_spec oldY ys (i + 1) bi bd hbd
      refine ⟨j, d, heq, hle, h20, ?_, ?_⟩
      · rcases horig with ⟨rfl, rfl⟩ | ⟨k, hk, rfl, rfl⟩
        · exact Or.inl ⟨rfl, rfl⟩
        · exact Or.inr ⟨k + 1, Nat.succ_lt_succ hk, by omega, rfl⟩
      · intro z hz
        rcases List.mem_cons.1 hz with rfl | hz
        · omega
        · exact hall z hz

/-- Running the scan from the initial `(-1, inf)` state either ends with
`best_idx = -1` and every line at distance at least the cutoff, or with a
line below the cutoff at minimal distance. -/
theorem findClosestAux_none_spec (oldY : Nat) :
    ∀ (ys : List Nat) (i : Nat),
      (findClosestAux oldY ys i none = none ∧ ∀ z ∈ ys, 20 ≤ dist z oldY) ∨
      (∃ j d, findClosestAux oldY ys i none = some (j, d) ∧ d < 20 ∧
        (∃ k, ∃ hk : k < ys.length, j = i + k ∧ d = dist (ys.get ⟨k, hk⟩) oldY) ∧
        ∀ z ∈ ys, d ≤ dist z oldY)
  | [], _ => Or.inl ⟨rfl, by simp⟩
  | y :: ys, i => by
    simp only [findClosestAux]
    split
    · rename_i hcond
      obtain ⟨j, d, heq, hle, h20, horig, hall⟩ :=
        findClosestAux_some_spec oldY ys (i + 1) i (dist y oldY) hcond
      refine Or.inr ⟨j, d, heq, h20, ?_, ?_⟩
      · rcases horig with ⟨rfl, rfl⟩ | ⟨k, hk, rfl, rfl⟩
        · exact ⟨0, Nat.succ_pos _, by omega, rfl⟩
        · exact ⟨k + 1, Nat.succ_lt_succ hk, by omega, rfl⟩
      · intro z hz
        rcases List.mem_cons.1 hz with rfl | hz
        · exact hle
        · exact hall z hz
    · rename_i hcond
      rcases findClosestAux_none_spec oldY ys (i + 1) with
        ⟨heq, hall⟩ | ⟨j, d, heq, h20, ⟨k, hk, hj, hd⟩, hall⟩
      · refine Or.inl ⟨heq, ?_⟩
        intro z hz
        rcases List.mem_cons.1 hz with rfl | hz
        · omega
        · exact hall z hz
      · refine Or.inr ⟨j, d, heq, h20, ⟨k + 1, Nat.succ_lt_succ hk, by omega, hd⟩, ?_⟩
        intro z hz
        rcases List.mem_cons.1 hz with rfl | hz
        · omega
        · exact hall z hz

/-- **C1** For every previously selected old y-value and new canonical
sequence, the remap chooses the new index whose y-value has the smallest
absolute distance to the old value, subject to the hard 20-pixel cutoff;
with no candidate within the cutoff the old selection is dropped.  An old
selection at y=50 matches a candidate at y=69 (distance 19) and is dropped
when the only candidate is at y=71 (distance 21). -/
theorem remap_chooses_nearest_within_cutoff (newLines : List Nat) (oldY : Nat) :
    (∀ i, findClosest newLines oldY = some i →
      ∃ y, newLines.get? i = some y ∧ dist y oldY < 20 ∧
        ∀ z ∈ newLines, dist y oldY ≤ dist z oldY)
    ∧ (findClosest newLines oldY = none ↔ ∀ z ∈ newLines, 20 ≤ dist z oldY)
    ∧ remapSelection [50] [69] = [0]
    ∧ remapSelection [50] [71] = [] := by
  refine ⟨?_, ⟨?_, ?_⟩, by decide, by decide⟩
  · intro i hi
    unfold findClosest at hi
    rcases findClosestAux_none_spec oldY newLines 0 with
      ⟨heq, _⟩ | ⟨j, d, heq, h20, ⟨k, hk, hj, hd⟩, hall⟩
    · rw [heq] at hi
      exact absurd hi (by simp)
    · rw [heq, Option.map_some'] at hi
      injection hi with hi
      have hik : i = k := by omega
      subst hik
      refine ⟨newLines.get ⟨i, hk⟩, List.get?_eq_get hk, by omega, ?_⟩
      intro z hz
      have := hall z hz
      omega
  · intro h
    rcases findClosestAux_none_spec oldY newLines 0 with
      ⟨_, hall⟩ | ⟨j, d, heq, _, _, _⟩
    · exact hall
    · unfold findClosest at h
      rw [heq] at h
      exact absurd h (by simp)
  · intro hall20
    rcases findClosestAux_none_spec oldY newLines 0 with
      ⟨heq, _⟩ | ⟨j, d, heq, h20, ⟨k, hk, hj, hd⟩, _⟩
    · unfold findClosest
      rw [heq]
      rfl
    · have := hall20 (newLines.get ⟨k, hk⟩) (List.get_mem newLines k hk)
      omega

/-- Witness for C1: the only candidate at y=71 is at distance 21 from the
old selection at y=50 and the selection is dropped. -/
theorem remap_cutoff_boundary_witness : findClosest [71] 50 = none :=
  (remap_chooses_nearest_within_cutoff [71] 50).2.1.mpr (by decide)

theorem remapSelection_foldl_nodup (newLines : List Nat) :
    ∀ (olds acc : List Nat), acc.Nodup → (olds.foldl (remapStep newLines) acc).Nodup
  | [], _, h => h
  | oldY :: olds, acc, h => by
    refine remapSelection_foldl_nodup newLines olds _ ?_
    unfold remapStep
    split
    · split
      · exact h
      · rename_i idx _ hmem
        simp [List.nodup_append, h, hmem]
    · exact h

/-- **C6** The remap never produces a Selection containing a repeated index:
when two old selections resolve to the same new index only the first in
insertion order is kept.  Two old selections (50 and 55) closest to the same
new line (52) yield the singleton Selection `[0]`; with olds `[100, 98, 0]`
over new lines `[0, 100]` the duplicate resolution of 98 is dropped and
insertion order is preserved. -/
theorem remap_no_duplicate_indices :
    (∀ oldSelectedY newLines : List Nat, (remapSelection oldSelectedY newLines).Nodup)
    ∧ remapSelection [50, 55] [52] = [0]
    ∧ (remapSelection [50, 55] [52]).length = 1
    ∧ remapSelection [100, 98, 0] [0, 100] = [1, 0] := by
  refine ⟨?_, by decide, by decide, by decide⟩
  intro olds newLines
  exact remapSelection_foldl_nodup newLines olds [] List.nodup_nil

/-! ## Ordinal persistence -/

/-- **C3 counterexample** A successful remap that leaves the Selection with
exactly 2 members does not rewrite the persisted ordinals: starting from
detected lines `[40, 200]` with both selected and persisted ordinals
`[1, 2]`, re-detection of raw candidates `[0, 40, 120, 200]` remaps the
selection to indices `[1, 3]` (ranks `[2, 4]`), yet `selected_line_numbers`
still holds the stale `[1, 2]`. -/
theorem remap_does_not_persist_ordinals :
    (detectLinesUpdate ⟨[40, 200], [0, 1], [1, 2]⟩ [0, 40, 120, 200]).selectedLines = [1, 3] ∧
    (detectLinesUpdate ⟨[40, 200], [0, 1], [1, 2]⟩ [0, 40, 120, 200]).selectedLines.length = 2 ∧
    sortList (((detectLinesUpdate ⟨[40, 200], [0, 1], [1, 2]⟩
        [0, 40, 120, 200]).selectedLines).map (· + 1)) = [2, 4] ∧
    (detectLinesUpdate ⟨[40, 200], [0, 1], [1, 2]⟩ [0, 40, 120, 200]).selectedLineNumbers
      = [1, 2] := by
  decide

/-- **C3 (amended)** The OrdinalSelection is derived and persisted as the
sorted pair of (index+1) ranks whenever the Selection reaches exactly 2
members by direct user interaction (canvas click or listbox confirm),
overwriting stale ordinals; a successful remap after re-detection updates
the Selection but always leaves the persisted ordinals unchanged. -/
theorem ordinal_persistence_user_interaction_only (s : ClipState) (imgY : Int)
    (sel raw : List Nat) :
    ((canvasClick s imgY).selectedLines.length = 2 →
      (canvasClick s imgY).selectedLineNumbers
          = sortList ((canvasClick s imgY).selectedLines.map (· + 1))
        ∨ canvasClick s imgY = s)
    ∧ ((useSelectedLines s sel).selectedLines.length = 2 →
      (useSelectedLines s sel).selectedLineNumbers
          = sortList ((useSelectedLines s sel).selectedLines.map (· + 1))
        ∨ useSelectedLines s sel = s)
    ∧ (detectLinesUpdate s raw).selectedLineNumbers = s.selectedLineNumbers := by
  refine ⟨?_, ?_, rfl⟩
  · unfold canvasClick
    split
    · intro _
      exact Or.inr rfl
    · split
      · intro _
        exact Or.inr rfl
      · split
        · intro h2
          simp only at h2 ⊢
          rw [if_pos h2]
          exact Or.inl rfl
        · intro _
          exact Or.inr rfl
  · unfold useSelectedLines
    split
    · intro _
      exact Or.inl rfl
    · intro _
      exact Or.inr rfl

/-- Witness for C3 (amended): a canvas click near y=100 on detected lines
`[0, 100]` with line 0 already selected brings the Selection to
`[0, 1]` and persists the ordinals `[1, 2]`. -/
theorem ordinal_persistence_witness :
    (canvasClick ⟨[0, 100], [0], [9, 9]⟩ 100).selectedLineNumbers
        = sortList ((canvasClick ⟨[0, 100], [0], [9, 9]⟩ 100).selectedLines.map (· + 1))
      ∨ canvasClick ⟨[0, 100], [0], [9, 9]⟩ 100 = ⟨[0, 100], [0], [9, 9]⟩ :=
  (ordinal_persistence_user_interaction_only ⟨[0, 100], [0], [9, 9]⟩ 100 [] []).1 (by decide)

/-! ## Batch processing lemmas -/

theorem processDetected_ne_errored (n1 n2 : Nat) (detected : List Nat) :
    processDetected n1 n2 detected ≠ .errored := by
  unfold processDetected
  split
  · simp
  · dsimp only
    split <;> simp

theorem batch_foldl_sum (n1 n2 : Nat) :
    ∀ (images : List BatchImage) (rep : BatchReport),
      (images.foldl (batchStep n1 n2) rep).success + (images.foldl (batchStep n1 n2) rep).skipped
          + (images.foldl (batchStep n1 n2) rep).errored
        = rep.success + rep.skipped + rep.errored + images.length
  | [], rep => by simp
  | im :: images, rep => by
    rw [List.foldl_cons, batch_foldl_sum n1 n2 images]
    unfold batchStep
    split <;> simp <;> omega

theorem batch_foldl_errored (n1 n2 : Nat) :
    ∀ (images : List BatchImage) (rep : BatchReport),
      (images.foldl (batchStep n1 n2) rep).errored
        = rep.errored + images.countP (fun im => decide (im = BatchImage.decodeFail))
  | [], rep => by simp
  | im :: images, rep => by
    rw [List.foldl_cons, batch_foldl_errored n1 n2 images]
    rcases im with _ | det
    · rw [List.countP_cons_of_pos _ _ (by simp)]
      show ({ rep with errored := rep.errored + 1 } : BatchReport).errored + _ = _
      simp
      omega
    · rw [List.countP_cons_of_neg _ _ (by simp)]
      unfold batchStep
      split
      · simp
      · simp
      · rename_i heq
        exact absurd heq (processDetected_ne_errored n1 n2 _)

/-- **C4** Given a fixed OrdinalSelection `(rank1, rank2)`, an image whose
canonical sequence has fewer elements than `max(rank1, rank2)` is skipped
with the detected line count reported; otherwise the y-values at positions
`rank1 - 1` and `rank2 - 1` are emitted as ascending crop bounds.  With
ranks `(1, 3)`, `[40, 120, 260]` yields bounds `(40, 260)` and `[10, 90]`
is skipped reporting 2 lines. -/
theorem ordinal_batch_selector_bounds_or_skip (n1 n2 : Nat) (detected : List Nat)
    (h1 : 1 ≤ n1) (h2 : 1 ≤ n2) :
    (detected.length < max n1 n2 → processDetected n1 n2 detected = .skipped detected.length)
    ∧ (max n1 n2 ≤ detected.length →
        ∃ y1 y2, detected.get? (n1 - 1) = some y1 ∧ detected.get? (n2 - 1) = some y2 ∧
          processDetected n1 n2 detected = .success (min y1 y2, max y1 y2))
    ∧ processDetected 1 3 [40, 120, 260] = .success (40, 260)
    ∧ processDetected 1 3 [10, 90] = .skipped 2 := by
  refine ⟨?_, ?_, by decide, by decide⟩
  · intro h
    unfold processDetected
    rw [if_pos h]
  · intro h
    have hn1 : n1 - 1 < detected.length := by omega
    have hn2 : n2 - 1 < detected.length := by omega
    refine ⟨detected.get ⟨n1 - 1, hn1⟩, detected.get ⟨n2 - 1, hn2⟩,
      List.get?_eq_get hn1, List.get?_eq_get hn2, ?_⟩
    unfold processDetected
    rw [if_neg (by omega)]
    simp only [List.getD_eq_get? , List.get?_eq_get hn1, List.get?_eq_get hn2, Option.getD_some]
    split
    · rename_i hlt
      rw [min_eq_right hlt.le, max_eq_left hlt.le]
    · rename_i hge
      rw [min_eq_left (by omega), max_eq_right (by omega)]

/-- Witness for C4: ranks `(1, 3)` on the canonical sequence `[40, 120, 260]`
produce the crop bounds `(40, 260)`. -/
theorem ordinal_batch_selector_witness :
    processDetected 1 3 [40, 120, 260] = .success (40, 260) :=
  (ordinal_batch_selector_bounds_or_skip 1 3 [40, 120, 260] (by decide) (by decide)).2.2.1

/-- **C5** Per-image decode failures are counted as errors, exactly the
decode failures are errors, no outcome aborts the batch (the three counters
always sum to the number of images), and a concrete 5-image run with 3
successes, 1 insufficient-lines skip and 1 decode failure in the middle
reports success=3, skipped=1, errored=1. -/
theorem batch_counts_and_no_abort (n1 n2 : Nat) (images : List BatchImage) :
    ((batchProcess n1 n2 images).success + (batchProcess n1 n2 images).skipped
        + (batchProcess n1 n2 images).errored = images.length)
    ∧ ((batchProcess n1 n2 images).errored
        = images.countP (fun im => decide (im = BatchImage.decodeFail)))
    ∧ batchProcess 1 2 [.img (.ok [0, 100]), .decodeFail, .img (.ok [0, 100]),
        .img (.ok []), .img (.ok [0, 100])] = ⟨3, 1, 1⟩ := by
  refine ⟨?_, ?_, by decide⟩
  · have h := batch_foldl_sum n1 n2 images ⟨0, 0, 0⟩
    simpa [batchProcess] using h
  · have h := batch_foldl_errored n1 n2 images ⟨0, 0, 0⟩
    simpa [batchProcess] using h

/-- **C10** A per-image detection exception yields an empty canonical
sequence and hence a SKIPPED outcome reporting 0 detected lines; a decoded
image can never produce an ERROR outcome — only decode failure does. -/
theorem detect_exception_counts_skipped (n1 n2 : Nat) (h1 : 1 ≤ n1) :
    processImage n1 n2 (.img .exn) = .skipped 0
    ∧ (∀ det, processImage n1 n2 (.img det) ≠ .errored)
    ∧ processImage n1 n2 .decodeFail = .errored := by
  refine ⟨?_, ?_, rfl⟩
  · show processDetected n1 n2 [] = .skipped 0
    unfold processDetected
    rw [if_pos (by simp only [List.length_nil]; omega)]
    rfl
  · intro det
    exact processDetected_ne_errored n1 n2 _

/-- Witness for C10: with ranks `(1, 3)` a detection exception is a skip
reporting 0 lines. -/
theorem detect_exception_counts_skipped_witness :
    processImage 1 3 (.img .exn) = .skipped 0 :=
  (detect_exception_counts_skipped 1 3 (by decide)).1

/-! ## Extractor segment filter -/

/-- **C9** Every segment accepted by the extractor filter is near-horizontal
— its angle `|atan2(dy, dx)| * 180 / π` is within 5 degrees of 0 or of 180 —
and the reported y-position `(y1 + y2) // 2` is the mean of the two endpoint
y-values rounded to an integer (it differs from the exact mean by at most
1/2). -/
theorem extractor_horizontal_filter (s : Segment) (a : ℝ)
    (ha : a = |Complex.arg (((s.x2 : ℝ) - (s.x1 : ℝ)) + ((s.y2 : ℝ) - (s.y1 : ℝ)) * Complex.I)|
        * (180 / Real.pi))
    (h : acceptsSegment s) :
    (|a - 0| < 5 ∨ |a - 180| < 5)
    ∧ |(rawLineY s : ℝ) - ((s.y1 : ℝ) + (s.y2 : ℝ)) / 2| ≤ 1 / 2 := by
  constructor
  · have hπ := Real.pi_pos
    have h0 : 0 ≤ a := by
      rw [ha]
      positivity
    have h180 : a ≤ 180 := by
      rw [ha]
      have harg := Complex.abs_arg_le_pi
        (((s.x2 : ℝ) - (s.x1 : ℝ)) + ((s.y2 : ℝ) - (s.y1 : ℝ)) * Complex.I)
      have hstep :
          |Complex.arg (((s.x2 : ℝ) - (s.x1 : ℝ)) + ((s.y2 : ℝ) - (s.y1 : ℝ)) * Complex.I)|
              * (180 / Real.pi)
            ≤ Real.pi * (180 / Real.pi) :=
        mul_le_mul_of_nonneg_right harg (by positivity)
      have hpi : Real.pi * (180 / Real.pi) = 180 := by
        field_simp
      linarith
    unfold acceptsSegment at h
    rw [← ha] at h
    rcases h with hlt | hgt
    · left
      rw [sub_zero, abs_of_nonneg h0]
      exact hlt
    · right
      rw [abs_of_nonpos (by linarith)]
      linarith
  · have h1 : 2 * ((s.y1 + s.y2) / 2) + (s.y1 + s.y2) % 2 = s.y1 + s.y2 :=
      Nat.div_add_mod _ 2
    have h2 : (s.y1 + s.y2) % 2 < 2 := Nat.mod_lt _ (by norm_num)
    have h1' : 2 * (((s.y1 + s.y2) / 2 : ℕ) : ℝ) + (((s.y1 + s.y2) % 2 : ℕ) : ℝ)
        = (s.y1 : ℝ) + (s.y2 : ℝ) := by
      exact_mod_cast h1
    have h2' : (((s.y1 + s.y2) % 2 : ℕ) : ℝ) ≤ 1 := by
      exact_mod_cast Nat.lt_succ_iff.mp h2
    have h0' : (0 : ℝ) ≤ (((s.y1 + s.y2) % 2 : ℕ) : ℝ) := Nat.cast_nonneg _
    unfold rawLineY
    rw [abs_le]
    constructor <;> linarith

/-- Witness for C9: the horizontal segment from (0, 5) to (10, 5) has angle
0 and reported y-position 5 = (5 + 5) / 2. -/
theorem extractor_horizontal_filter_witness :
    (|(0 : ℝ) - 0| < 5 ∨ |(0 : ℝ) - 180| < 5)
    ∧ |(rawLineY ⟨0, 5, 10, 5⟩ : ℝ) - (((5 : Nat) : ℝ) + ((5 : Nat) : ℝ)) / 2| ≤ 1 / 2 := by
  have harg :
      Complex.arg ((((10 : Nat) : ℝ) - ((0 : Nat) : ℝ)) + (((5 : Nat) : ℝ) - ((5 : Nat) : ℝ))
          * Complex.I) = 0 := by
    have hz : ((((10 : Nat) : ℝ) : ℂ) - (((0 : Nat) : ℝ) : ℂ))
        + ((((5 : Nat) : ℝ) : ℂ) - (((5 : Nat) : ℝ) : ℂ)) * Complex.I = ((10 : ℝ) : ℂ) := by
      push_cast
      norm_num
    rw [hz]
    exact Complex.arg_ofReal_of_nonneg (by norm_num)
  refine extractor_horizontal_filter ⟨0, 5, 10, 5⟩ 0 ?_ ?_
  · show (0 : ℝ) = |Complex.arg ((((10 : Nat) : ℝ) - ((0 : Nat) : ℝ))
        + (((5 : Nat) : ℝ) - ((5 : Nat) : ℝ)) * Complex.I)| * (180 / Real.pi)
    rw [harg]
    simp
  · show |Complex.arg ((((10 : Nat) : ℝ) - ((0 : Nat) : ℝ))
        + (((5 : Nat) : ℝ) - ((5 : Nat) : ℝ)) * Complex.I)| * (180 / Real.pi) < 5 ∨
      175 < |Complex.arg ((((10 : Nat) : ℝ) - ((0 : Nat) : ℝ))
        + (((5 : Nat) : ℝ) - ((5 : Nat) : ℝ)) * Complex.I)| * (180 / Real.pi)
    left
    rw [harg]
    norm_num

end ImageClipper
